import Mathlib

/-!
Shallow embedding of the preset change-tracking and versioning subsystem of
the Cocoa repository (src/main), together with theorems settling the frozen
claims about it.  Python machine behaviour that the claims depend on is
modelled faithfully: list slicing (including the `[-0:]` quirk), `dict.get`
defaults, `set` union with unspecified iteration order (modelled as an
explicit enumeration parameter), and exception propagation (`Option`/flags).
-/

namespace Cocoa

/-- Python slice `l[:k]` (stop index may be negative, as in `history[:index+1]`). -/
def pySliceTo {α : Type} (l : List α) (k : Int) : List α :=
  if k < 0 then l.take (l.length - (-k).toNat) else l.take k.toNat

/-- Python slice `l[k:]` (start index may be negative, as in `history[-max_history:]`).
Note that for `k = 0` — which is what Python computes for `-max_history` when
`max_history = 0`, since `-0 == 0` — the slice is the whole list. -/
def pySliceFrom {α : Type} (l : List α) (k : Int) : List α :=
  if k < 0 then l.drop (l.length - (-k).toNat) else l.drop k.toNat

/-- Python indexing `l[i]` (negative indices count from the end; out of range
is an `IndexError`, modelled as `none`). -/
def pyGet {α : Type} (l : List α) (i : Int) : Option α :=
  let j : Int := if i < 0 then i + l.length else i
  if 0 ≤ j then l.get? j.toNat else none

/-- In-memory state of `UndoRedoManager` (src/main/undo_redo_manager.py):
the `history` list, the current `index`, and the `max_history` bound.
File persistence (`_save`) has no effect on this state and is omitted. -/
structure UR (α : Type) where
  history : List α
  index : Int
  maxHistory : Int

/-- `UndoRedoManager.add_state`:
`history = history[:index+1]`, append the state, then if
`len(history) > max_history` keep `history[-max_history:]`, and set
`index = len(history) - 1`. -/
def addState {α : Type} (s : UR α) (v : α) : UR α :=
  let h := pySliceTo s.history (s.index + 1) ++ [v]
  let h := if (h.length : Int) > s.maxHistory then pySliceFrom h (-s.maxHistory) else h
  { history := h, index := (h.length : Int) - 1, maxHistory := s.maxHistory }

/-- `UndoRedoManager.undo`: if `index > 0`, decrement and return
`history[index]`; else return the null sentinel (`none`). -/
def undo {α : Type} (s : UR α) : Option α × UR α :=
  if 0 < s.index then
    (pyGet s.history (s.index - 1), { s with index := s.index - 1 })
  else (none, s)

/-- `UndoRedoManager.redo`: if `index < len(history) - 1`, increment and
return `history[index]`; else return the null sentinel (`none`). -/
def redo {α : Type} (s : UR α) : Option α × UR α :=
  if s.index < (s.history.length : Int) - 1 then
    (pyGet s.history (s.index + 1), { s with index := s.index + 1 })
  else (none, s)

/-- One public mutating operation of the undo/redo manager. -/
inductive Op (α : Type) where
  | add (v : α)
  | und
  | red

/-- Apply one operation to the manager state (return values discarded). -/
def applyOp {α : Type} (s : UR α) : Op α → UR α
  | .add v => addState s v
  | .und => (undo s).2
  | .red => (redo s).2

/-- Apply a sequence of operations left to right. -/
def applyOps {α : Type} (s : UR α) (ops : List (Op α)) : UR α :=
  ops.foldl applyOp s

theorem pySliceTo_length_le {α : Type} (l : List α) (k : Int) :
    (pySliceTo l k).length ≤ l.length := by
  unfold pySliceTo
  split <;> simp [List.length_take]

theorem applyOp_maxHistory {α : Type} (s : UR α) (o : Op α) :
    (applyOp s o).maxHistory = s.maxHistory := by
  cases o with
  | add v => rfl
  | und =>
    show (undo s).2.maxHistory = s.maxHistory
    unfold undo; split <;> rfl
  | red =>
    show (redo s).2.maxHistory = s.maxHistory
    unfold redo; split <;> rfl

theorem addState_length_le {α : Type} (s : UR α) (v : α)
    (h1 : 1 ≤ s.maxHistory) (h2 : (s.history.length : Int) ≤ s.maxHistory) :
    ((addState s v).history.length : Int) ≤ s.maxHistory := by
  unfold addState
  set h := pySliceTo s.history (s.index + 1) ++ [v] with hh
  have hlen : h.length ≤ s.history.length + 1 := by
    have := pySliceTo_length_le s.history (s.index + 1)
    simp [hh]; omega
  by_cases hc : (h.length : Int) > s.maxHistory
  · simp only [hc, if_pos]
    have hneg : -s.maxHistory < 0 := by omega
    simp only [pySliceFrom, if_pos hneg]
    simp only [List.length_drop]
    omega
  · simp only [hc, if_neg, ite_false]
    omega

theorem applyOp_length_le {α : Type} (s : UR α) (o : Op α)
    (h1 : 1 ≤ s.maxHistory) (h2 : (s.history.length : Int) ≤ s.maxHistory) :
    ((applyOp s o).history.length : Int) ≤ s.maxHistory := by
  cases o with
  | add v => exact addState_length_le s v h1 h2
  | und =>
    show ((undo s).2.history.length : Int) ≤ s.maxHistory
    unfold undo; split <;> simpa
  | red =>
    show ((redo s).2.history.length : Int) ≤ s.maxHistory
    unfold redo; split <;> simpa

theorem applyOps_length_le {α : Type} (ops : List (Op α)) (s : UR α)
    (h1 : 1 ≤ s.maxHistory) (h2 : (s.history.length : Int) ≤ s.maxHistory) :
    ((applyOps s ops).history.length : Int) ≤ s.maxHistory ∧
      (applyOps s ops).maxHistory = s.maxHistory := by
  induction ops generalizing s with
  | nil => exact ⟨h2, rfl⟩
  | cons o rest ih =>
    have hmax := applyOp_maxHistory s o
    have hlen := applyOp_length_le s o h1 h2
    have := ih (applyOp s o) (hmax ▸ h1) (hmax ▸ hlen)
    simpa [applyOps, hmax] using this

/-- C1: with history `[A,B,C]` and index 2, `undo()` yields index 1 returning
`B`; `add_state(D)` then discards the redo branch giving history `[A,B,D]`
with index 2; `redo()` now returns the null sentinel.  (Holds for any
`max_history ≥ 3`; the constructor default is 20.) -/
theorem add_state_prunes_redo_branch {α : Type} (a b c d : α) (m : Int) (h : 3 ≤ m) :
    undo (⟨[a, b, c], 2, m⟩ : UR α) = (some b, ⟨[a, b, c], 1, m⟩) ∧
    addState (⟨[a, b, c], 1, m⟩ : UR α) d = ⟨[a, b, d], 2, m⟩ ∧
    (redo (⟨[a, b, d], 2, m⟩ : UR α)).1 = none := by
  refine ⟨?_, ?_, ?_⟩
  · unfold undo pyGet
    norm_num
  · unfold addState pySliceTo pySliceFrom
    have hm : ¬ ((3 : Int) > m) := by omega
    norm_num [hm]
    rfl
  · unfold redo
    norm_num

theorem add_state_prunes_redo_branch_witness :
    undo (⟨[0, 1, 2], 2, 20⟩ : UR Nat) = (some 1, ⟨[0, 1, 2], 1, 20⟩) ∧
    addState (⟨[0, 1, 2], 1, 20⟩ : UR Nat) 3 = ⟨[0, 1, 3], 2, 20⟩ ∧
    (redo (⟨[0, 1, 3], 2, 20⟩ : UR Nat)).1 = none :=
  add_state_prunes_redo_branch 0 1 2 3 20 (by decide)

/-- C2: from any well-formed state in which `undo()` succeeds (`index > 0`,
and the current index is in range), `redo()` with no intervening `add_state`
returns exactly the pre-undo current state `history[index]` (which exists)
and restores `index` to its pre-undo value. -/
theorem redo_after_undo_roundtrip {α : Type} (s : UR α)
    (h1 : 0 < s.index) (h2 : s.index < (s.history.length : Int)) :
    (redo (undo s).2).1 = s.history.get? s.index.toNat ∧
    (redo (undo s).2).2.index = s.index ∧
    (s.history.get? s.index.toNat).isSome := by
  have hu : (undo s).2 = { s with index := s.index - 1 } := by
    unfold undo; rw [if_pos h1]
  rw [hu]
  have hc : s.index - 1 < ((s.history.length : Int)) - 1 := by omega
  have hn : s.index.toNat < s.history.length := by omega
  unfold redo
  simp only [if_pos hc]
  have hi : s.index - 1 + 1 = s.index := by omega
  refine ⟨?_, by omega, ?_⟩
  · unfold pyGet
    simp only [hi]
    have : ¬ (s.index < 0) := by omega
    simp [this]
  · rw [List.get?_eq_get hn]; rfl

theorem redo_after_undo_roundtrip_witness :
    (redo (undo (⟨[10, 20], 1, 5⟩ : UR Nat)).2).1 = some 20 ∧
    (redo (undo (⟨[10, 20], 1, 5⟩ : UR Nat)).2).2.index = 1 := by
  have h := redo_after_undo_roundtrip (⟨[10, 20], 1, 5⟩ : UR Nat) (by decide) (by decide)
  exact ⟨by rw [h.1]; rfl, h.2.1⟩

/-- C3 counterexample: with `max_history = 0` the bound fails after a single
`add_state` from the empty (in-bound) state, because Python's
`history[-max_history:]` is `history[0:]` (the whole list) when
`max_history = 0`, so no truncation ever happens. -/
theorem history_bound_fails_at_zero_max :
    (((⟨[], -1, 0⟩ : UR Nat).history.length : Int) ≤ (⟨[], -1, 0⟩ : UR Nat).maxHistory) ∧
    ¬ (((applyOps (⟨[], -1, 0⟩ : UR Nat) [Op.add 7]).history.length : Int) ≤
        (⟨[], -1, 0⟩ : UR Nat).maxHistory) := by
  decide

/-- C3 amended: provided `max_history ≥ 1`, every sequence of `add_state`,
`undo`, `redo` from a state with `len(history) ≤ max_history` keeps the
history length at most `max_history`; moreover whenever an `add_state`
exceeds the bound, exactly the oldest entries are dropped: the new history is
the suffix of the appended list keeping the most recent `max_history`
entries. -/
theorem history_bound_of_pos_max {α : Type} (s : UR α) (ops : List (Op α))
    (h1 : 1 ≤ s.maxHistory) (h2 : (s.history.length : Int) ≤ s.maxHistory) :
    ((applyOps s ops).history.length : Int) ≤ s.maxHistory ∧
    ∀ (t : UR α) (v : α), 1 ≤ t.maxHistory →
      ((pySliceTo t.history (t.index + 1) ++ [v]).length : Int) > t.maxHistory →
      (addState t v).history =
        (pySliceTo t.history (t.index + 1) ++ [v]).drop
          ((pySliceTo t.history (t.index + 1) ++ [v]).length - t.maxHistory.toNat) := by
  refine ⟨(applyOps_length_le ops s h1 h2).1, ?_⟩
  intro t v ht hx
  unfold addState
  simp only [if_pos hx]
  unfold pySliceFrom
  have hneg : -t.maxHistory < 0 := by omega
  rw [if_pos hneg]
  congr 1
  omega

theorem history_bound_of_pos_max_witness :
    ((applyOps (⟨[7, 8], 1, 2⟩ : UR Nat) [Op.add 5, Op.add 6, Op.red]).history.length : Int) ≤ 2 :=
  (history_bound_of_pos_max (⟨[7, 8], 1, 2⟩ : UR Nat) [Op.add 5, Op.add 6, Op.red]
    (by decide) (by decide)).1

/-- Observable condition of a persisted history file: absent, unusable
(raises on open / JSON parse / attribute access), or loading as a JSON dict
whose `history`/`index` fields (with their `.get` defaults) are `h`/`i`. -/
inductive FileState (V : Type) where
  | missing
  | corrupt
  | ok (h : List V) (i : Int)

/-- `UndoRedoManager._load` (src/main/undo_redo_manager.py): read the primary
file if it exists; on any exception, fall back to the `.bak` sidecar if it
exists; when the fallback is absent or itself raises, the fields keep the
constructor's initial `[] / -1` (the `else` branch re-assigns exactly those
values).  The function is total: no condition makes construction raise. -/
def loadState {V : Type} (primary backup : FileState V) : List V × Int :=
  match primary with
  | .missing => ([], -1)
  | .ok h i => (h, i)
  | .corrupt =>
    match backup with
    | .missing => ([], -1)
    | .ok h i => (h, i)
    | .corrupt => ([], -1)

/-- C7: if loading the primary file raises, the manager falls back to the
`.bak` sidecar; if the backup is missing or unusable too, it starts with
empty history and index −1; and construction always yields a state (never
raises) whatever the two files' conditions. -/
theorem load_falls_back_to_backup {V : Type} :
    (∀ (h : List V) (i : Int), loadState FileState.corrupt (FileState.ok h i) = (h, i)) ∧
    (@loadState V FileState.corrupt FileState.missing = ([], -1)) ∧
    (@loadState V FileState.corrupt FileState.corrupt = ([], -1)) ∧
    (∀ p b : FileState V, ∃ hist idx, loadState p b = (hist, idx)) :=
  ⟨fun _ _ => rfl, rfl, rfl, fun p b => ⟨(loadState p b).1, (loadState p b).2, rfl⟩⟩

/-- Loop body of `find_entry_by_time`'s scan:
`if closest is None or abs(e.timestamp - target) < abs(closest.timestamp - target): closest = e`. -/
def scanStep {E : Type} (ts : E → Int) (target : Int) (closest : Option E) (e : E) : Option E :=
  match closest with
  | none => some e
  | some c => if |ts e - target| < |ts c - target| then some e else some c

/-- `find_entry_by_time` (src/main/preset_history_diff_and_rollback.py):
linear scan keeping the current entry only when strictly closer to the
target than the best so far.  Timestamps are abstracted by `ts`, and the
`strptime`-parsed target by `target`. -/
def findEntryByTime {E : Type} (ts : E → Int) (target : Int) (entries : List E) : Option E :=
  entries.foldl (scanStep ts target) none

/-- The non-`None` accumulator step of `find_entry_by_time`'s scan. -/
def closerStep {E : Type} (ts : E → Int) (target : Int) (c e : E) : E :=
  if |ts e - target| < |ts c - target| then e else c

theorem scanStep_some {E : Type} (ts : E → Int) (target : Int) (c e : E) :
    scanStep ts target (some c) e = some (closerStep ts target c e) := by
  show (if |ts e - target| < |ts c - target| then some e else some c) = _
  unfold closerStep
  exact (apply_ite some _ _ _).symm

theorem foldl_some_closerStep {E : Type} (ts : E → Int) (target : Int) :
    ∀ (l : List E) (c : E),
      List.foldl (scanStep ts target) (some c) l =
        some (l.foldl (closerStep ts target) c) := by
  intro l
  induction l with
  | nil => intro c; rfl
  | cons x l ih =>
    intro c
    rw [List.foldl_cons, List.foldl_cons, scanStep_some]
    exact ih (closerStep ts target c x)

theorem findEntryByTime_cons {E : Type} (ts : E → Int) (target : Int)
    (c : E) (rest : List E) :
    findEntryByTime ts target (c :: rest) =
      some (rest.foldl (closerStep ts target) c) := by
  unfold findEntryByTime
  rw [List.foldl_cons]
  exact foldl_some_closerStep ts target rest c

theorem foldl_closerStep_first_min {E : Type} (ts : E → Int) (target : Int) :
    ∀ (l : List E) (c : E), ∃ l1 l2,
      c :: l = l1 ++ (l.foldl (closerStep ts target) c) :: l2 ∧
      (∀ x ∈ c :: l,
        |ts (l.foldl (closerStep ts target) c) - target| ≤ |ts x - target|) ∧
      (∀ x ∈ l1,
        |ts (l.foldl (closerStep ts target) c) - target| < |ts x - target|) := by
  intro l
  induction l with
  | nil =>
    intro c
    exact ⟨[], [], rfl, by simp, by simp⟩
  | cons x l ih =>
    intro c
    rw [List.foldl_cons]
    by_cases hx : |ts x - target| < |ts c - target|
    · have hs : closerStep ts target c x = x := by unfold closerStep; rw [if_pos hx]
      rw [hs]
      obtain ⟨l1, l2, hd, hmin, hfirst⟩ := ih x
      refine ⟨c :: l1, l2, ?_, ?_, ?_⟩
      · rw [List.cons_append, ← hd]
      · intro y hy
        rcases List.mem_cons.mp hy with hc | hy'
        · subst hc
          exact le_of_lt (lt_of_le_of_lt (hmin x (List.mem_cons_self _ _)) hx)
        · exact hmin y hy'
      · intro y hy
        rcases List.mem_cons.mp hy with hc | hy'
        · subst hc
          exact lt_of_le_of_lt (hmin x (List.mem_cons_self _ _)) hx
        · exact hfirst y hy'
    · have hs : closerStep ts target c x = c := by unfold closerStep; rw [if_neg hx]
      rw [hs]
      obtain ⟨l1, l2, hd, hmin, hfirst⟩ := ih c
      have hcx : |ts c - target| ≤ |ts x - target| := le_of_not_lt hx
      cases l1 with
      | nil =>
        have hr : l.foldl (closerStep ts target) c = c := (List.cons.injEq _ _ _ _ ▸ hd).1.symm
        refine ⟨[], x :: l, ?_, ?_, by simp⟩
        · rw [hr]; rfl
        · intro y hy
          rcases List.mem_cons.mp hy with hc | hy'
          · subst hc; rw [hr]
          · rcases List.mem_cons.mp hy' with hc2 | hy2
            · subst hc2; rw [hr]; exact hcx
            · exact hmin y (List.mem_cons.mpr (Or.inr hy2))
      | cons z l1' =>
        have hz : z = c := ((List.cons.injEq _ _ _ _).mp hd).1.symm
        have hl : l = l1' ++ (l.foldl (closerStep ts target) c) :: l2 :=
          ((List.cons.injEq _ _ _ _).mp hd).2
        have hrc : |ts (l.foldl (closerStep ts target) c) - target| < |ts c - target| := by
          have := hfirst z (List.mem_cons_self _ _)
          rwa [hz] at this
        refine ⟨c :: x :: l1', l2, ?_, ?_, ?_⟩
        · rw [List.cons_append, List.cons_append, ← hl]
        · intro y hy
          rcases List.mem_cons.mp hy with hc | hy'
          · subst hc; exact le_of_lt hrc
          · rcases List.mem_cons.mp hy' with hc2 | hy2
            · subst hc2; exact le_of_lt (lt_of_lt_of_le hrc hcx)
            · exact hmin y (List.mem_cons.mpr (Or.inr hy2))
        · intro y hy
          rcases List.mem_cons.mp hy with hc | hy'
          · subst hc; exact hrc
          · rcases List.mem_cons.mp hy' with hc2 | hy2
            · subst hc2; exact lt_of_lt_of_le hrc hcx
            · exact hfirst y (List.mem_cons.mpr (Or.inr hy2))

/-- C6: on the empty sequence `find_entry_by_time` returns `None`; on any
non-empty sequence it returns an entry of minimum absolute timestamp
difference from the target, and among equally close entries the
first-encountered one in scan order (every entry strictly before the result
has strictly larger difference). -/
theorem find_entry_by_time_first_closest {E : Type} (ts : E → Int) (target : Int) :
    findEntryByTime ts target [] = none ∧
    ∀ (c : E) (rest : List E), ∃ e l1 l2,
      findEntryByTime ts target (c :: rest) = some e ∧
      c :: rest = l1 ++ e :: l2 ∧
      (∀ x ∈ c :: rest, |ts e - target| ≤ |ts x - target|) ∧
      (∀ x ∈ l1, |ts e - target| < |ts x - target|) := by
  refine ⟨rfl, fun c rest => ?_⟩
  obtain ⟨l1, l2, hd, hmin, hfirst⟩ := foldl_closerStep_first_min ts target rest c
  exact ⟨rest.foldl (closerStep ts target) c, l1, l2,
    findEntryByTime_cons ts target c rest, hd, hmin, hfirst⟩

/-- Key set union `set(d1.keys()) | set(d2.keys())`, as a duplicate-free
list.  A Python `set` has no specified iteration order, so only membership
in this list is meaningful; enumeration orders are passed explicitly where
the code iterates the set. -/
def keysUnion {V : Type} (d1 d2 : List (String × V)) : List String :=
  (d1.map Prod.fst ++ d2.map Prod.fst).dedup

/-- One key's contribution to the flat diff shared by `diff_dict` and
`diff_versions`: compare `d1.get(k)` with `d2.get(k)` — an absent key reads
as Python `None`, modelled by `vnull` — and report `(k, old, new)` when they
differ. -/
def diffKey {V : Type} [DecidableEq V] (vnull : V) (d1 d2 : List (String × V))
    (k : String) : Option (String × V × V) :=
  let v1 := (d1.lookup k).getD vnull
  let v2 := (d2.lookup k).getD vnull
  if v1 ≠ v2 then some (k, v1, v2) else none

/-- `diff_dict` (src/main/preset_history_diff_and_rollback.py): iterate
`sorted(keys)` over the key-set union and report each differing key; the
formatted line `f"{k}: {v1} -> {v2}"` is modelled by the triple
`(k, v1, v2)`. -/
def diff_dict {V : Type} [DecidableEq V] (vnull : V) (d1 d2 : List (String × V)) :
    List (String × V × V) :=
  (List.insertionSort (· ≤ ·) (keysUnion d1 d2)).filterMap (diffKey vnull d1 d2)

/-- `PresetVersionManager.diff_versions` (src/main/preset_version_manager.py),
after both files load as JSON objects: iterate the key-set union in Python's
unspecified `set` iteration order — given here as the explicit enumeration
`order` — and collect `{k: {'A': v1, 'B': v2}}` for differing keys, modelled
by the triple `(k, v1, v2)` in iteration order. -/
def diff_versions {V : Type} [DecidableEq V] (vnull : V) (d1 d2 : List (String × V))
    (order : List String) : List (String × V × V) :=
  order.filterMap (diffKey vnull d1 d2)

theorem diffKey_keys_sublist {V : Type} [DecidableEq V] (vnull : V)
    (d1 d2 : List (String × V)) :
    ∀ l : List String,
      ((l.filterMap (diffKey vnull d1 d2)).map Prod.fst).Sublist l := by
  intro l
  induction l with
  | nil => simp
  | cons k l ih =>
    rw [List.filterMap_cons]
    cases h : diffKey vnull d1 d2 k with
    | none => exact ih.cons k
    | some p =>
      have hp : p.1 = k := by
        simp only [diffKey] at h
        split at h
        · cases h; rfl
        · cases h
      rw [List.map_cons, hp]
      exact ih.cons₂ k

/-- The two dicts used in the C5 counterexample (values are `Option Int`,
`none` standing for JSON `null` / Python `None`). -/
def d1ex : List (String × Option Int) := [("b", some 1)]

def d2ex : List (String × Option Int) := [("b", some 2), ("a", some 3)]

/-- C5 counterexample: `diff_versions` iterates a Python `set`, whose
iteration order is unspecified (string hashing is even randomized per
process), so the reported keys need not be sorted: under the admissible
enumeration `["b", "a"]` of the key union `{a, b}` it reports keys in the
order `b, a`, which is not sorted by key name — refuting the claim that both
diffs report keys sorted. -/
theorem diff_versions_order_not_sorted :
    (["b", "a"] : List String).Perm (keysUnion d1ex d2ex) ∧
    (diff_versions (none : Option Int) d1ex d2ex ["b", "a"]).map Prod.fst = ["b", "a"] ∧
    ¬ List.Sorted (· ≤ ·)
      ((diff_versions (none : Option Int) d1ex d2ex ["b", "a"]).map Prod.fst) := by
  refine ⟨by decide, rfl, ?_⟩
  intro h
  rw [show (diff_versions (none : Option Int) d1ex d2ex ["b", "a"]).map Prod.fst
        = ["b", "a"] from rfl] at h
  have hba : ("b" : String) ≤ "a" :=
    (List.sorted_cons.mp h).1 "a" (List.mem_singleton.mpr rfl)
  rw [String.le_iff_toList_le] at hba
  exact absurd hba (by decide)

/-- C5 amended: for every pair of JSON objects, `diff_dict` and
`diff_versions` compute the same flat key-level diff **as a set**: they
report exactly the same `(key, old, new)` triples (a key absent from one
side counting as null), for any enumeration order of the key set; but only
`diff_dict` reports the keys sorted by key name — `diff_versions` reports
them in the unspecified set-iteration order. -/
theorem diffs_agree_up_to_order {V : Type} [DecidableEq V] (vnull : V)
    (d1 d2 : List (String × V)) (order : List String)
    (hp : order.Perm (keysUnion d1 d2)) :
    (diff_versions vnull d1 d2 order).Perm (diff_dict vnull d1 d2) ∧
    List.Sorted (· ≤ ·) ((diff_dict vnull d1 d2).map Prod.fst) := by
  constructor
  · exact List.Perm.filterMap _
      (hp.trans (List.perm_insertionSort (· ≤ ·) (keysUnion d1 d2)).symm)
  · exact (List.sorted_insertionSort (· ≤ ·) (keysUnion d1 d2)).sublist
      (diffKey_keys_sublist vnull d1 d2 _)

theorem diffs_agree_up_to_order_witness :
    (diff_versions (none : Option Int) d1ex d2ex ["b", "a"]).Perm
      (diff_dict (none : Option Int) d1ex d2ex) :=
  (diffs_agree_up_to_order (none : Option Int) d1ex d2ex ["b", "a"] (by decide)).1

/-- `iter_history`'s yield guard:
`(preset_name is None) or (entry["preset_name"] == preset_name)`. -/
def keepEntry {E : Type} (nameOf : E → String) (presetName : Option String) (e : E) : Bool :=
  match presetName with
  | none => true
  | some p => nameOf e == p

/-- `PresetChangeHistory.iter_history` (src/main/preset_change_history.py),
on the history file's lines: a line with falsy `line.strip()` (abstracted by
`isBlank`) is skipped with `continue`; otherwise `json.loads(line)`
(abstracted by `parse`, `none` = decode error) either yields the entry —
subject to the preset-name guard — or raises, ending the iteration.  The
result is the list of entries yielded to the consumer together with whether
a decode error was then raised. -/
def iterHistory {E : Type} (isBlank : String → Bool) (parse : String → Option E)
    (nameOf : E → String) (presetName : Option String) : List String → List E × Bool
  | [] => ([], false)
  | line :: rest =>
    if isBlank line then iterHistory isBlank parse nameOf presetName rest
    else
      match parse line with
      | none => ([], true)
      | some e =>
        let r := iterHistory isBlank parse nameOf presetName rest
        if keepEntry nameOf presetName e then (e :: r.1, r.2) else r

theorem iterHistory_cons {E : Type} (isBlank : String → Bool)
    (parse : String → Option E) (nameOf : E → String) (presetName : Option String)
    (line : String) (rest : List String) :
    iterHistory isBlank parse nameOf presetName (line :: rest) =
      if isBlank line then iterHistory isBlank parse nameOf presetName rest
      else
        match parse line with
        | none => ([], true)
        | some e =>
          let r := iterHistory isBlank parse nameOf presetName rest
          if keepEntry nameOf presetName e then (e :: r.1, r.2) else r := rfl

/-- C10: `iter_history` skips blank/whitespace-only lines wherever they
occur (its result on the file equals its result on the file with blank
lines removed); it raises a decode error exactly when some non-blank line
fails to parse; and the entries it yields are exactly the parses of the
non-blank lines strictly before the first malformed one (passed through the
preset-name guard) — malformed lines are never silently skipped and never
yielded. -/
theorem iter_history_blank_and_malformed {E : Type} (isBlank : String → Bool)
    (parse : String → Option E) (nameOf : E → String) (presetName : Option String) :
    ∀ lines : List String,
      iterHistory isBlank parse nameOf presetName lines =
        iterHistory isBlank parse nameOf presetName
          (lines.filter (fun l => !isBlank l)) ∧
      ((iterHistory isBlank parse nameOf presetName lines).2 = true ↔
        ∃ l ∈ lines, isBlank l = false ∧ parse l = none) ∧
      (iterHistory isBlank parse nameOf presetName lines).1 =
        (((lines.filter (fun l => !isBlank l)).takeWhile
            (fun l => (parse l).isSome)).filterMap parse).filter
          (keepEntry nameOf presetName) := by
  intro lines
  induction lines with
  | nil => exact ⟨rfl, by simp [iterHistory], rfl⟩
  | cons line rest ih =>
    obtain ⟨ih1, ih2, ih3⟩ := ih
    by_cases hb : isBlank line = true
    · have hstep : iterHistory isBlank parse nameOf presetName (line :: rest) =
          iterHistory isBlank parse nameOf presetName rest := by
        rw [iterHistory_cons, if_pos hb]
      have hfilter : (line :: rest).filter (fun l => !isBlank l) =
          rest.filter (fun l => !isBlank l) := by
        rw [List.filter_cons]; simp [hb]
      refine ⟨?_, ?_, ?_⟩
      · rw [hstep, hfilter]; exact ih1
      · rw [hstep]
        rw [ih2]
        constructor
        · rintro ⟨l, hl, h⟩; exact ⟨l, List.mem_cons.mpr (Or.inr hl), h⟩
        · rintro ⟨l, hl, h⟩
          rcases List.mem_cons.mp hl with rfl | hl'
          · rw [hb] at h; cases h.1
          · exact ⟨l, hl', h⟩
      · rw [hstep, hfilter]; exact ih3
    · have hb' : isBlank line = false := by simpa using hb
      have hfilter : (line :: rest).filter (fun l => !isBlank l) =
          line :: rest.filter (fun l => !isBlank l) := by
        rw [List.filter_cons]; simp [hb']
      cases hp : parse line with
      | none =>
        have hstep : iterHistory isBlank parse nameOf presetName (line :: rest) =
            ([], true) := by
          rw [iterHistory_cons, if_neg hb, hp]
        have hstep2 : iterHistory isBlank parse nameOf presetName
            (line :: rest.filter (fun l => !isBlank l)) = ([], true) := by
          rw [iterHistory_cons, if_neg hb, hp]
        refine ⟨?_, ?_, ?_⟩
        · rw [hstep, hfilter, hstep2]
        · rw [hstep]
          simp only [true_iff]
          exact ⟨line, List.mem_cons_self _ _, hb', hp⟩
        · rw [hstep, hfilter]
          rw [List.takeWhile_cons]
          simp [hp]
      | some e =>
        have hstep : iterHistory isBlank parse nameOf presetName (line :: rest) =
            (if keepEntry nameOf presetName e
             then (e :: (iterHistory isBlank parse nameOf presetName rest).1,
                   (iterHistory isBlank parse nameOf presetName rest).2)
             else iterHistory isBlank parse nameOf presetName rest) := by
          rw [iterHistory_cons, if_neg hb, hp]
        have hstep2 : iterHistory isBlank parse nameOf presetName
            (line :: rest.filter (fun l => !isBlank l)) =
            (if keepEntry nameOf presetName e
             then (e :: (iterHistory isBlank parse nameOf presetName
                     (rest.filter (fun l => !isBlank l))).1,
                   (iterHistory isBlank parse nameOf presetName
                     (rest.filter (fun l => !isBlank l))).2)
             else iterHistory isBlank parse nameOf presetName
                    (rest.filter (fun l => !isBlank l))) := by
          rw [iterHistory_cons, if_neg hb, hp]
        refine ⟨?_, ?_, ?_⟩
        · rw [hstep, hfilter, hstep2, ih1]
        · rw [hstep]
          have h2 : (if keepEntry nameOf presetName e
              then (e :: (iterHistory isBlank parse nameOf presetName rest).1,
                    (iterHistory isBlank parse nameOf presetName rest).2)
              else iterHistory isBlank parse nameOf presetName rest).2 =
              (iterHistory isBlank parse nameOf presetName rest).2 := by
            split <;> rfl
          rw [h2, ih2]
          constructor
          · rintro ⟨l, hl, h⟩; exact ⟨l, List.mem_cons.mpr (Or.inr hl), h⟩
          · rintro ⟨l, hl, h⟩
            rcases List.mem_cons.mp hl with rfl | hl'
            · rw [hp] at h; cases h.2
            · exact ⟨l, hl', h⟩
        · rw [hstep, hfilter]
          rw [List.takeWhile_cons]
          simp only [hp, Option.isSome_some, ite_true]
          rw [List.filterMap_cons]
          simp only [hp]
          rw [List.filter_cons]
          by_cases hk : keepEntry nameOf presetName e = true
          · rw [if_pos hk, if_pos hk]
            exact congrArg _ ih3
          · rw [if_neg hk, if_neg hk]
            exact ih3

/-- Python `set.add`, on a set modelled as a duplicate-free list. -/
def pyInsert {α : Type} [DecidableEq α] (s : List α) (x : α) : List α :=
  if x ∈ s then s else s ++ [x]

/-- Python `set.update` (`s |= t`), on sets modelled as duplicate-free lists. -/
def pyUnion {α : Type} [DecidableEq α] (s t : List α) : List α :=
  t.foldl pyInsert s

/-- The inner `visit` of `detect_cycles`
(src/main/preset_dependency_analyzer.py): depth-first walk threading the
shared `visited` set and accumulated `cycles` (`acc`); when the node is
already on the active path, `path[path.index(node):] + [node]` is recorded
as a cycle.  The fuel argument models Python's call stack; it is never
exhausted on the inputs considered here. -/
def visit (depMap : List (String × List String)) :
    Nat → String → List String → List String × List (List String) →
    List String × List (List String)
  | 0, _, _, acc => acc
  | Nat.succ fuel, node, path, acc =>
    if node ∈ path then
      (acc.1, pyInsert acc.2 (path.dropWhile (fun x => x != node) ++ [node]))
    else if node ∈ acc.1 then acc
    else
      ((depMap.lookup node).getD []).foldl
        (fun a nb => visit depMap fuel nb (path ++ [node]) a)
        (acc.1 ++ [node], acc.2)

/-- `detect_cycles`: run `visit` from every node of the dependency map (in
dict order) with an empty path, starting from empty `visited` and `cycles`. -/
def detect_cycles (depMap : List (String × List String)) (fuel : Nat) :
    List (List String) :=
  ((depMap.map Prod.fst).foldl (fun acc n => visit depMap fuel n [] acc) ([], [])).2

/-- The dependency map with exactly the edges `A->B`, `B->C`, `C->A`. -/
def cycleMapABC : List (String × List String) :=
  [("A", ["B"]), ("B", ["C"]), ("C", ["A"])]

/-- C9: on the edges `A->B, B->C, C->A`, `detect_cycles` reports at least
one cycle tuple of three nodes plus the repeated closing node (length 4,
first element equal to last) containing all of `A`, `B` and `C`. -/
theorem detect_cycles_three_cycle :
    ∃ c ∈ detect_cycles cycleMapABC 10,
      c.length = 4 ∧ c.head? = c.getLast? ∧ "A" ∈ c ∧ "B" ∈ c ∧ "C" ∈ c := by
  decide

/-- `all_descendants` (src/main/preset_dependency_analyzer.py), with
explicit fuel standing for Python's bounded call stack (`none` = the
recursion exceeds any finite depth, i.e. Python's `RecursionError`).  As in
the source, the memo entry for a node is written only **after** all of its
children have been processed; no in-progress marker exists. -/
def all_descendants (depMap : List (String × List String)) :
    Nat → String → List (String × List String) →
    Option (List String × List (String × List String))
  | 0, _, _ => none
  | Nat.succ fuel, node, memo =>
    match memo.lookup node with
    | some d => some (d, memo)
    | none => do
      let (descendants, memo') ← ((depMap.lookup node).getD []).foldlM
        (fun (acc : List String × List (String × List String)) child => do
          let acc1 := pyInsert acc.1 child
          let r ← all_descendants depMap fuel child acc.2
          pure (pyUnion acc1 r.1, r.2))
        ([], memo)
      some (descendants, (node, descendants) :: memo')

/-- The dependency map with exactly the edges `A->B` and `B->A`. -/
def cycleMapAB : List (String × List String) := [("A", ["B"]), ("B", ["A"])]

/-- C4 fails on the code: on the cyclic map `{A: {B}, B: {A}}`,
`all_descendants` never terminates — for every recursion-depth budget the
computation still demands more, because the memo is only written after a
node's children are fully processed, so the cycle re-enters `A` while the
memo is still empty.  (In Python this surfaces as `RecursionError`; the
same pattern makes `max_dependency_depth` recurse forever on this map, and
`max()` over the empty generator even raises `ValueError` on a pure
self-loop.) -/
theorem all_descendants_diverges_on_cycle :
    ∀ fuel : Nat,
      all_descendants cycleMapAB fuel "A" [] = none ∧
      all_descendants cycleMapAB fuel "B" [] = none := by
  intro fuel
  induction fuel with
  | zero => exact ⟨rfl, rfl⟩
  | succ n ih =>
    obtain ⟨ihA, ihB⟩ := ih
    constructor
    · simp only [all_descendants]
      simp only [cycleMapAB] at ihB ⊢
      simp [ihB, List.foldlM]
    · simp only [all_descendants]
      simp only [cycleMapAB] at ihA ⊢
      simp [ihA, List.foldlM]

/-- Python `str.replace` on character lists: replace all non-overlapping
occurrences of `pat`, scanning left to right (the fuel is the scanned
list's length, always sufficient; `pat` is `.json`, never empty, in the
source). -/
def replaceChars (pat rep : List Char) : Nat → List Char → List Char
  | 0, s => s
  | Nat.succ _, [] => []
  | Nat.succ n, c :: rest =>
    if pat.isPrefixOf (c :: rest) then
      rep ++ replaceChars pat rep n ((c :: rest).drop pat.length)
    else c :: replaceChars pat rep n rest

/-- Python `preset_name.replace('.json', '')` and friends. -/
def pyReplace (s pat rep : String) : String :=
  ⟨replaceChars pat.data rep.data s.data.length s.data⟩

/-- `os.path.join` as used by the version manager. -/
def joinPath (dir name : String) : String := dir ++ "/" ++ name

/-- The observable result of one `save_version` call. -/
inductive SaveOutcome where
  | errNoSrc
  | warnExists
  | saved
  | errCopyFailed
deriving DecidableEq

/-- The retry loop `for i in range(retry): try: shutil.copy2(src, dst) ...`
of `save_version`; `copyFails i` says whether attempt `i` raises a
transient I/O error.  A successful copy creates `dst` with the source's
content; exhausting all attempts reports failure without raising. -/
def attemptCopy (fs : List (String × String)) (dst content : String)
    (copyFails : Nat → Bool) : List Nat → List (String × String) × SaveOutcome
  | [] => (fs, .errCopyFailed)
  | i :: rest =>
    if copyFails i then attemptCopy fs dst content copyFails rest
    else ((dst, content) :: fs, .saved)

/-- `PresetVersionManager.save_version` (src/main/preset_version_manager.py).
The filesystem is an association list filename → content (most recent
binding first); `ts` is the second-resolution
`datetime.now().strftime("%Y%m%d_%H%M%S")` the call observes. -/
def save_version (fs : List (String × String))
    (presetDir versionDir presetName ts : String)
    (copyFails : Nat → Bool) (retry : Nat) : List (String × String) × SaveOutcome :=
  match fs.lookup (joinPath presetDir presetName) with
  | none => (fs, .errNoSrc)
  | some content =>
    let verName := pyReplace presetName ".json" "" ++ "_v" ++ ts ++ ".json"
    let dst := joinPath versionDir verName
    if (fs.lookup dst).isSome then (fs, .warnExists)
    else attemptCopy fs dst content copyFails (List.range retry)

theorem attemptCopy_saved (dst content : String) (copyFails : Nat → Bool) :
    ∀ (l : List Nat) (fs fs' : List (String × String)),
      attemptCopy fs dst content copyFails l = (fs', .saved) →
      fs' = (dst, content) :: fs := by
  intro l
  induction l with
  | nil =>
    intro fs fs' h
    exact absurd (congrArg Prod.snd h) (by simp [attemptCopy])
  | cons i rest ih =>
    intro fs fs' h
    rw [show attemptCopy fs dst content copyFails (i :: rest) =
        (if copyFails i then attemptCopy fs dst content copyFails rest
         else ((dst, content) :: fs, .saved)) from rfl] at h
    by_cases hc : copyFails i = true
    · exact ih fs fs' (by rwa [if_pos hc] at h)
    · rw [if_neg hc] at h
      exact ((Prod.mk.injEq _ _ _ _).mp h).1.symm

/-- C8: when a `save_version` call succeeds (outcome `saved`), it has added
exactly one snapshot file, whose name did not exist before; and a second
call observing the same second-resolution timestamp — hence computing the
same destination name — leaves the filesystem unchanged and returns the
`warnExists` outcome: no overwrite, no error, whatever its own retry
parameters. -/
theorem save_version_same_second_idempotent
    (fs : List (String × String)) (presetDir versionDir presetName ts : String)
    (copyFails : Nat → Bool) (retry : Nat) (fs' : List (String × String))
    (h : save_version fs presetDir versionDir presetName ts copyFails retry
          = (fs', .saved)) :
    (∃ content,
      fs.lookup (joinPath presetDir presetName) = some content ∧
      fs' = (joinPath versionDir
              (pyReplace presetName ".json" "" ++ "_v" ++ ts ++ ".json"),
             content) :: fs) ∧
    fs.lookup (joinPath versionDir
      (pyReplace presetName ".json" "" ++ "_v" ++ ts ++ ".json")) = none ∧
    ∀ (copyFails2 : Nat → Bool) (retry2 : Nat),
      save_version fs' presetDir versionDir presetName ts copyFails2 retry2
        = (fs', .warnExists) := by
  unfold save_version at h
  cases hsrc : fs.lookup (joinPath presetDir presetName) with
  | none =>
    rw [hsrc] at h
    exact absurd (congrArg Prod.snd h) (by simp)
  | some content =>
    rw [hsrc] at h
    simp only at h
    set dst := joinPath versionDir
      (pyReplace presetName ".json" "" ++ "_v" ++ ts ++ ".json") with hdstdef
    cases hdst : fs.lookup dst with
    | some c0 =>
      rw [hdst] at h
      simp only [Option.isSome_some, ite_true] at h
      exact absurd (congrArg Prod.snd h) (by simp)
    | none =>
      rw [hdst] at h
      simp only [Option.isSome_none, Bool.false_eq_true, ite_false] at h
      have hfs' : fs' = (dst, content) :: fs :=
        attemptCopy_saved dst content copyFails (List.range retry) fs fs' h
      refine ⟨⟨content, rfl, hfs'⟩, rfl, ?_⟩
      intro copyFails2 retry2
      have hsrc2 : ∃ c2, fs'.lookup (joinPath presetDir presetName) = some c2 := by
        rw [hfs']
        simp only [List.lookup]
        cases hq : (joinPath presetDir presetName == dst) with
        | true => exact ⟨content, rfl⟩
        | false => exact ⟨content, hsrc⟩
      obtain ⟨c2, hc2⟩ := hsrc2
      have hdst2 : fs'.lookup dst = some content := by
        rw [hfs']
        simp [List.lookup]
      unfold save_version
      rw [hc2]
      simp only
      rw [← hdstdef, hdst2]
      simp

theorem save_version_same_second_idempotent_witness :
    save_version
      [("versions/a_v20260101_120000.json", "X"), ("presets/a.json", "X")]
      "presets" "versions" "a.json" "20260101_120000" (fun _ => false) 2
      = ([("versions/a_v20260101_120000.json", "X"), ("presets/a.json", "X")],
         SaveOutcome.warnExists) :=
  (save_version_same_second_idempotent [("presets/a.json", "X")]
    "presets" "versions" "a.json" "20260101_120000" (fun _ => false) 2
    [("versions/a_v20260101_120000.json", "X"), ("presets/a.json", "X")]
    rfl).2.2 (fun _ => false) 2

end Cocoa
